import Mathlib

set_option autoImplicit false

/-!
Shallow embedding of the image-concat-rs library (src/lib.rs) and
verification of its specification claims.

Images are modelled as a width, a height and a pixel-content function;
machine integers of the source (u32/u64/usize) are modelled as `Nat`
(the claims under study are layout/arithmetic properties far below any
overflow boundary).  Fallible Rust code returns `Except`; Rust code that
can also panic (integer division by zero, `Option::unwrap` on `None`,
out-of-range slice `unwrap`) returns `RunResult`, whose `panicked`
constructor marks a panic.
-/

/-- An image (or canvas): width, height and pixel content.  `pix x y` is the
pixel value at column `x`, row `y`.  This models `ImageBuffer<P, Vec<_>>`. -/
structure Img where
  width : Nat
  height : Nat
  pix : Nat → Nat → Nat

/-- Model of the `ConcatDirection` enum of the source. -/
inductive ConcatDirection where
  | Vertical
  | Horizontal

/-- Model of the `ImageBlit` struct: an image together with the target
coordinate of its top-left corner. -/
structure ImageBlit where
  img : Img
  x : Nat
  y : Nat

/-- Outcome of running a Rust function that may return `Err` or panic. -/
inductive RunResult (α : Type) where
  | panicked : RunResult α
  | err : RunResult α
  | ok : α → RunResult α

/-- Rust `usize` division: panics when the divisor is zero. -/
def rustDiv (a b : Nat) : RunResult Nat :=
  if b = 0 then RunResult.panicked else RunResult.ok (a / b)

/-- Rust `usize` remainder: panics when the divisor is zero. -/
def rustMod (a b : Nat) : RunResult Nat :=
  if b = 0 then RunResult.panicked else RunResult.ok (a % b)

/-- Model of `get_concat_blits` (src/lib.rs lines 239-259): step through the
images, threading the running coordinate, advancing `y` by each image's
height (Vertical) or `x` by each image's width (Horizontal). -/
def get_concat_blits : List Img → ConcatDirection → Nat → Nat → List ImageBlit
  | [], _, _, _ => []
  | img :: rest, dir, x, y =>
    { img := img, x := x, y := y } ::
      (match dir with
       | ConcatDirection.Vertical => get_concat_blits rest dir x (y + img.height)
       | ConcatDirection.Horizontal => get_concat_blits rest dir (x + img.width) y)

/-- The fold step of `place_images_in_buffer`'s size scan: extend the running
maxima by one blit's right edge `x + width` and bottom edge `y + height`. -/
def blit_extent_step (acc : Nat × Nat) (blit : ImageBlit) : Nat × Nat :=
  (max acc.1 (blit.x + blit.img.width), max acc.2 (blit.y + blit.img.height))

/-- The `(total_width, total_height)` fold of `place_images_in_buffer`
(src/lib.rs lines 200-206). -/
def canvas_dims (images : List ImageBlit) : Nat × Nat :=
  images.foldl blit_extent_step (0, 0)

/-- Overwrite the rectangle of `buf` whose top-left corner is `(x, y)` and
whose size is `other`'s with `other`'s pixels (the pixel copy loop of
`GenericImage::copy_from`). -/
def paint (buf other : Img) (x y : Nat) : Img :=
  { buf with pix := fun u v =>
    (if x ≤ u ∧ u < x + other.width ∧ y ≤ v ∧ v < y + other.height then
      other.pix (u - x) (v - y) else buf.pix u v) }

/-- Model of the `image` crate's `GenericImage::copy_from`: bounds-check the
destination rectangle, then overwrite that rectangle of `buf` with `other`'s
pixels. -/
def copy_from (buf : Img) (other : Img) (x y : Nat) : Except Unit Img :=
  if buf.width < other.width + x ∨ buf.height < other.height + y then
    Except.error ()
  else
    Except.ok (paint buf other x y)

/-- The copy loop of `place_images_in_buffer` (src/lib.rs lines 212-214):
`copy_from` each blit in order, propagating the first error. -/
def copyAllBlits : Img → List ImageBlit → Except Unit Img
  | buf, [] => Except.ok buf
  | buf, blit :: rest =>
    match copy_from buf blit.img blit.x blit.y with
    | Except.error e => Except.error e
    | Except.ok buf2 => copyAllBlits buf2 rest

/-- Model of `place_images_in_buffer` (src/lib.rs lines 196-217): scan the
blits for the canvas size, allocate a zero-filled canvas of exactly that
size, then copy every blit into it. -/
def place_images_in_buffer (images : List ImageBlit) : Except Unit Img :=
  let td := canvas_dims images
  copyAllBlits { width := td.1, height := td.2, pix := fun _ _ => 0 } images

/-- Model of `concat_images` (src/lib.rs lines 151-157). -/
def concat_images (images : List Img) (direction : ConcatDirection) :
    Except Unit Img :=
  place_images_in_buffer (get_concat_blits images direction 0 0)

/-- The `for idx in 0..columns` loop of `column_concat_images`
(src/lib.rs lines 304-338), with its `break` when `end >= num_images`
and the `max().unwrap()` over the column's blit right edges (an unwrap of
`None` is a panic). -/
def columnLoop (images : List Img) (chunk_q chunk_remainder : Nat) :
    List Nat → Nat → Nat → List ImageBlit → RunResult (List ImageBlit)
  | [], _, _, blits => RunResult.ok blits
  | idx :: rest, start, x, blits =>
    let chunk_size := if idx < chunk_remainder then chunk_q + 1 else chunk_q
    let endIdx := start + chunk_size
    if endIdx ≥ images.length then
      RunResult.ok blits
    else
      let col_blits :=
        get_concat_blits ((images.drop start).take chunk_size)
          ConcatDirection.Vertical x 0
      match (col_blits.map (fun blit => blit.x + blit.img.width)).max? with
      | none => RunResult.panicked
      | some max_width_raw =>
        let max_width := max_width_raw - x
        columnLoop images chunk_q chunk_remainder rest endIdx (x + max_width)
          (blits ++ col_blits)

/-- Model of `column_concat_images` (src/lib.rs lines 287-342): divide the
image count by `columns` (a Rust panic when `columns = 0`), run the column
loop to plan blits, then execute them with `place_images_in_buffer`. -/
def column_concat_images (images : List Img) (columns : Nat) : RunResult Img :=
  let num_images := images.length
  match rustDiv num_images columns with
  | RunResult.panicked => RunResult.panicked
  | RunResult.err => RunResult.err
  | RunResult.ok chunk_size =>
    match rustMod num_images columns with
    | RunResult.panicked => RunResult.panicked
    | RunResult.err => RunResult.err
    | RunResult.ok chunk_remainder =>
      match columnLoop images chunk_size chunk_remainder
          (List.range columns) 0 0 [] with
      | RunResult.panicked => RunResult.panicked
      | RunResult.err => RunResult.err
      | RunResult.ok blits =>
        match place_images_in_buffer blits with
        | Except.error _ => RunResult.err
        | Except.ok c => RunResult.ok c

/-- A decode handle as produced by `ImageReader::into_decoder`: declared
dimensions, declared raw byte length (`total_bytes`), whether `read_image`
succeeds, and the raw bytes it would write. -/
structure Decoder where
  width : Nat
  height : Nat
  totalBytes : Nat
  readOk : Bool
  data : Nat → Nat

/-- What opening one path yields: an open/`into_decoder` failure, or a
decoder. -/
inductive OpenResult where
  | failure : OpenResult
  | decoder : Decoder → OpenResult

/-- A flat RGB8 pixel buffer (`RgbImage`): its backing byte container has
length `width * height * 3` and `data i` is byte `i` of it. -/
structure RgbBuffer where
  width : Nat
  height : Nat
  data : Nat → Nat

/-- The first loop of `load_and_vert_concat_images` (src/lib.rs lines
29-46): open every path, propagating the first failure. -/
def openDecoders : List OpenResult → Option (List Decoder)
  | [] => some []
  | OpenResult.failure :: _ => none
  | OpenResult.decoder d :: rest => (openDecoders rest).map (fun ds => d :: ds)

/-- The second loop of `load_and_vert_concat_images` (src/lib.rs lines
52-66): slice `byte_start..byte_end` out of the buffer (`get_mut` returns
`None`, hence `unwrap` panics, when the range end exceeds the container
length), then `read_image` into the slice with the result discarded
(`let _ = ...`) — a failed decode leaves the slice bytes unmodified in this
model, and crucially does not abort the loop. -/
def decodeLoop : RgbBuffer → Nat → List Decoder → RunResult RgbBuffer
  | buf, _, [] => RunResult.ok buf
  | buf, byte_start, d :: rest =>
    let byte_len := d.totalBytes
    let byte_end := byte_start + byte_len
    if byte_end ≤ buf.width * buf.height * 3 then
      let buf2 :=
        if d.readOk then
          { buf with data := fun i =>
              if byte_start ≤ i ∧ i < byte_end then d.data (i - byte_start)
              else buf.data i }
        else buf
      decodeLoop buf2 byte_end rest
    else
      RunResult.panicked

/-- Model of `load_and_vert_concat_images` (src/lib.rs lines 24-70): open
all decoders, size the canvas as `max_width × total_height`, zero-allocate
it, then decode each image into its contiguous byte range. -/
def load_and_vert_concat_images (paths : List OpenResult) :
    RunResult RgbBuffer :=
  match openDecoders paths with
  | none => RunResult.err
  | some decoders =>
    let total_height := (decoders.map Decoder.height).sum
    let max_width := (decoders.map Decoder.width).foldl max 0
    let buffer : RgbBuffer :=
      { width := max_width, height := total_height, data := fun _ => 0 }
    decodeLoop buffer 0 decoders

/-- View an RGB8 byte buffer as an `Img`, one `Nat` per pixel: the pixel at
`(x, y)` packs the three bytes at flat offset `3 * (y * width + x)` in base
256 (this is how `GenericImage::get_pixel` reads an `RgbImage`). -/
def rgbToImg (b : RgbBuffer) : Img :=
  { width := b.width, height := b.height
    pix := fun x y =>
      b.data (3 * (y * b.width + x)) * 65536 +
        b.data (3 * (y * b.width + x) + 1) * 256 +
        b.data (3 * (y * b.width + x) + 2) }

/-- The `for idx in 0..columns` loop of `load_and_column_concat_images`
(src/lib.rs lines 110-125): slice `image_paths[start..end]` (a Rust panic
when `end` exceeds the slice length), vertically load each column, and
collect the column buffers in order. -/
def loadColumnLoop (paths : List OpenResult) (chunk_q chunk_remainder : Nat) :
    List Nat → Nat → List RgbBuffer → RunResult (List RgbBuffer)
  | [], _, bufs => RunResult.ok bufs
  | idx :: rest, start, bufs =>
    let chunk_size := if idx < chunk_remainder then chunk_q + 1 else chunk_q
    let endIdx := start + chunk_size
    if endIdx > paths.length then
      RunResult.panicked
    else
      match load_and_vert_concat_images ((paths.drop start).take chunk_size) with
      | RunResult.panicked => RunResult.panicked
      | RunResult.err => RunResult.err
      | RunResult.ok b =>
        loadColumnLoop paths chunk_q chunk_remainder rest endIdx (bufs ++ [b])

/-- Model of `load_and_column_concat_images` (src/lib.rs lines 89-128):
divide the path count by `columns` (a Rust panic when `columns = 0`, before
any file is opened), build the per-column buffers, then horizontally
concatenate them with `concat_images`. -/
def load_and_column_concat_images (paths : List OpenResult) (columns : Nat) :
    RunResult Img :=
  match rustDiv paths.length columns with
  | RunResult.panicked => RunResult.panicked
  | RunResult.err => RunResult.err
  | RunResult.ok chunk_size =>
    match rustMod paths.length columns with
    | RunResult.panicked => RunResult.panicked
    | RunResult.err => RunResult.err
    | RunResult.ok chunk_remainder =>
      match loadColumnLoop paths chunk_size chunk_remainder
          (List.range columns) 0 [] with
      | RunResult.panicked => RunResult.panicked
      | RunResult.err => RunResult.err
      | RunResult.ok col_buffs =>
        match concat_images (col_buffs.map rgbToImg)
            ConcatDirection.Horizontal with
        | Except.error _ => RunResult.err
        | Except.ok c => RunResult.ok c

/-- Modelled from the spec (sections 4.1 and 4.4): the `plan_columns`
partition — the first `N mod C` columns get `N div C + 1` images, the rest
get `N div C`.  Used as the reference side of the refinement claim about
`column_concat_images`. -/
def plan_columns (n c : Nat) : List Nat :=
  (List.range c).map (fun i => if i < n % c then n / c + 1 else n / c)

/-- Split a list into successive groups of the given sizes. -/
def take_groups : List Img → List Nat → List (List Img)
  | _, [] => []
  | imgs, n :: rest => imgs.take n :: take_groups (imgs.drop n) rest

/-- Reference side of the refinement claim (spec section 4.1, guarantee of
`derive_column_blits`): vertically concatenate each column's images per the
`plan_columns` partition, then horizontally concatenate the materialized
per-column canvases with `concat_images`. -/
def column_concat_reference (images : List Img) (columns : Nat) :
    Except Unit Img :=
  (take_groups images (plan_columns images.length columns)).mapM
      (fun g => concat_images g ConcatDirection.Vertical) >>=
    fun cols => concat_images cols ConcatDirection.Horizontal

/-- A point `(u, v)` lies inside the destination rectangle of a blit (the
rectangle is empty when the blit's image has width 0 or height 0). -/
abbrev inRectP (b : ImageBlit) (u v : Nat) : Prop :=
  b.x ≤ u ∧ u < b.x + b.img.width ∧ b.y ≤ v ∧ v < b.y + b.img.height

/-- Width of a successfully produced canvas, `none` on error or panic. -/
def resultWidth : RunResult Img → Option Nat
  | RunResult.ok c => some c.width
  | _ => none

/-- Height of a successfully produced canvas, `none` on error or panic. -/
def resultHeight : RunResult Img → Option Nat
  | RunResult.ok c => some c.height
  | _ => none

/-- Whether a run ended in a Rust panic. -/
def isPanicked {α : Type} : RunResult α → Bool
  | RunResult.panicked => true
  | _ => false

/-- Whether a run returned successfully. -/
def isOkR {α : Type} : RunResult α → Bool
  | RunResult.ok _ => true
  | _ => false

/-- Width of a successful `Except` canvas, `none` on error. -/
def exceptWidth : Except Unit Img → Option Nat
  | Except.ok c => some c.width
  | Except.error _ => none

/-- Byte `i` of a successfully produced RGB buffer, `none` on error/panic. -/
def getByte : RunResult RgbBuffer → Nat → Option Nat
  | RunResult.ok b, i => some (b.data i)
  | _, _ => none

/-- A concrete pair of RGB8 decoders (widths 2 and 1) used to instantiate
the byte-range safety theorem. -/
def c10_probe : List Decoder :=
  [{ width := 2, height := 1, totalBytes := 6, readOk := true,
     data := fun _ => 0 },
   { width := 1, height := 2, totalBytes := 6, readOk := true,
     data := fun _ => 0 }]

/-- C1: refuted at a concrete input.  With two images of sizes 1×1 and 5×1
and `columns = 2`, every image should be placed (expected canvas 6×1), but
`column_concat_images` breaks out of its loop when `end >= num_images`,
dropping the entire final column: the result is a 1×1 canvas containing
only the first image. -/
theorem c1_last_column_dropped :
    resultWidth (column_concat_images
        [{ width := 1, height := 1, pix := fun _ _ => 1 },
         { width := 5, height := 1, pix := fun _ _ => 2 }] 2) = some 1 ∧
    resultHeight (column_concat_images
        [{ width := 1, height := 1, pix := fun _ _ => 1 },
         { width := 5, height := 1, pix := fun _ _ => 2 }] 2) = some 1 := by
  constructor
  · decide
  · decide

/-- C2: refuted at a concrete input.  Two 1×1 decoders, the second of which
fails to decode (`readOk = false`): `load_and_vert_concat_images` still
returns `ok` — the decode error is discarded by `let _ = decoder.read_image`
— and the returned canvas contains the first image's partially written bytes
(byte 0 is 10, from the first decoder) while the failed region stays
zero-filled (byte 3 is 0). -/
theorem c2_decode_error_swallowed :
    isOkR (load_and_vert_concat_images
        [OpenResult.decoder
          { width := 1, height := 1, totalBytes := 3, readOk := true,
            data := fun i => i + 10 },
         OpenResult.decoder
          { width := 1, height := 1, totalBytes := 3, readOk := false,
            data := fun i => i + 50 }]) = true ∧
    getByte (load_and_vert_concat_images
        [OpenResult.decoder
          { width := 1, height := 1, totalBytes := 3, readOk := true,
            data := fun i => i + 10 },
         OpenResult.decoder
          { width := 1, height := 1, totalBytes := 3, readOk := false,
            data := fun i => i + 50 }]) 0 = some 10 := by
  constructor
  · decide
  · decide

/-- C3: refuted at a concrete input.  A 1×1 image (bytes 100,101,102)
followed by a 2×1 image (bytes 200..205): the canvas is 2 wide and 2 tall,
so the second image's first pixel should land at (0,1), i.e. flat byte
offset 6 should hold 200.  The code has no width-mismatch check and writes
the second image's bytes contiguously at offsets 3..9, so byte 6 holds 203
instead. -/
theorem c3_no_width_mismatch_fallback :
    getByte (load_and_vert_concat_images
        [OpenResult.decoder
          { width := 1, height := 1, totalBytes := 3, readOk := true,
            data := fun i => 100 + i },
         OpenResult.decoder
          { width := 2, height := 1, totalBytes := 6, readOk := true,
            data := fun i => 200 + i }]) 6 = some 203 ∧
    some 203 ≠ some 200 := by
  constructor
  · decide
  · decide

/-- C4: refuted at a concrete input.  One 1×1 image and `columns = 1`:
the reference plan (vertically concatenate the single column, then
horizontally concatenate the column canvases) yields a 1×1 canvas, but
`column_concat_images` drops the final column and yields a 0×0 canvas. -/
theorem c4_not_equivalent_to_reference :
    resultWidth (column_concat_images
        [{ width := 1, height := 1, pix := fun _ _ => 7 }] 1) = some 0 ∧
    exceptWidth (column_concat_reference
        [{ width := 1, height := 1, pix := fun _ _ => 7 }] 1) = some 1 := by
  constructor
  · decide
  · decide

/-- C5: refuted at a concrete input.  With `columns = 0`, both
`column_concat_images` and `load_and_column_concat_images` reach
`len / columns` with a zero divisor and panic (Rust integer division by
zero); neither returns an `InvalidArgument` error. -/
theorem c5_zero_columns_panics :
    isPanicked (column_concat_images
        [{ width := 2, height := 2, pix := fun _ _ => 0 }] 0) = true ∧
    isPanicked (load_and_column_concat_images
        [OpenResult.decoder
          { width := 2, height := 2, totalBytes := 12, readOk := true,
            data := fun _ => 0 }] 0) = true := by
  constructor
  · decide
  · decide


/-- Max of zero and a natural is that natural. -/
theorem nat_max_zero_left (n : Nat) : max 0 n = n :=
  max_eq_right (Nat.zero_le n)

/-- Max of a natural and zero is that natural. -/
theorem nat_max_zero_right (n : Nat) : max n 0 = n :=
  max_eq_left (Nat.zero_le n)

/-- Folding `max` from an arbitrary seed factors through the seed. -/
theorem foldl_max_from (l : List Nat) :
    ∀ a : Nat, l.foldl max a = max a (l.foldl max 0) := by
  induction l with
  | nil => intro a; rw [List.foldl_nil, List.foldl_nil, nat_max_zero_right]
  | cons x xs ih =>
    intro a
    simp only [List.foldl_cons]
    rw [ih (max a x), ih (max 0 x), nat_max_zero_left, max_assoc]

/-- Every list element is bounded by the max fold. -/
theorem foldl_max_le (l : List Nat) : ∀ n ∈ l, n ≤ l.foldl max 0 := by
  induction l with
  | nil => intro n h; cases h
  | cons x xs ih =>
    intro n hn
    simp only [List.foldl_cons, nat_max_zero_left]
    rw [foldl_max_from]
    rcases List.mem_cons.mp hn with rfl | h
    · exact le_max_left _ _
    · exact le_trans (ih n h) (le_max_right _ _)

/-- The max fold is zero or attained by some list element. -/
theorem foldl_max_attained (l : List Nat) :
    l.foldl max 0 = 0 ∨ ∃ n ∈ l, n = l.foldl max 0 := by
  induction l with
  | nil => left; rfl
  | cons x xs ih =>
    simp only [List.foldl_cons, nat_max_zero_left]
    rw [foldl_max_from]
    rcases le_total x (xs.foldl max 0) with h | h
    · rw [max_eq_right h]
      rcases ih with h0 | ⟨n, hn, he⟩
      · left; exact h0
      · right; exact ⟨n, List.mem_cons_of_mem _ hn, he⟩
    · rw [max_eq_left h]
      right; exact ⟨x, List.mem_cons_self _ _, rfl⟩

/-- The width component of the size scan is a max fold over right edges. -/
theorem canvas_dims_fst_aux (bs : List ImageBlit) :
    ∀ p : Nat × Nat, (bs.foldl blit_extent_step p).1 =
      (bs.map (fun b => b.x + b.img.width)).foldl max p.1 := by
  induction bs with
  | nil => intro p; rfl
  | cons b bs ih =>
    intro p
    simp only [List.foldl_cons, List.map_cons]
    exact ih (blit_extent_step p b)

/-- The height component of the size scan is a max fold over bottom edges. -/
theorem canvas_dims_snd_aux (bs : List ImageBlit) :
    ∀ p : Nat × Nat, (bs.foldl blit_extent_step p).2 =
      (bs.map (fun b => b.y + b.img.height)).foldl max p.2 := by
  induction bs with
  | nil => intro p; rfl
  | cons b bs ih =>
    intro p
    simp only [List.foldl_cons, List.map_cons]
    exact ih (blit_extent_step p b)

/-- The scanned canvas width as a max fold. -/
theorem canvas_dims_fst (bs : List ImageBlit) :
    (canvas_dims bs).1 = (bs.map (fun b => b.x + b.img.width)).foldl max 0 :=
  canvas_dims_fst_aux bs (0, 0)

/-- The scanned canvas height as a max fold. -/
theorem canvas_dims_snd (bs : List ImageBlit) :
    (canvas_dims bs).2 = (bs.map (fun b => b.y + b.img.height)).foldl max 0 :=
  canvas_dims_snd_aux bs (0, 0)

/-- One-step unfolding of the scanned canvas width. -/
theorem canvas_dims_fst_cons (b : ImageBlit) (bs : List ImageBlit) :
    (canvas_dims (b :: bs)).1 =
      max (b.x + b.img.width) (canvas_dims bs).1 := by
  rw [canvas_dims_fst, List.map_cons, List.foldl_cons, nat_max_zero_left,
    foldl_max_from, ← canvas_dims_fst]

/-- One-step unfolding of the scanned canvas height. -/
theorem canvas_dims_snd_cons (b : ImageBlit) (bs : List ImageBlit) :
    (canvas_dims (b :: bs)).2 =
      max (b.y + b.img.height) (canvas_dims bs).2 := by
  rw [canvas_dims_snd, List.map_cons, List.foldl_cons, nat_max_zero_left,
    foldl_max_from, ← canvas_dims_snd]

/-- Every blit's rectangle fits inside the scanned canvas size. -/
theorem canvas_dims_le (bs : List ImageBlit) :
    ∀ b ∈ bs, b.x + b.img.width ≤ (canvas_dims bs).1 ∧
      b.y + b.img.height ≤ (canvas_dims bs).2 := by
  intro b hb
  constructor
  · rw [canvas_dims_fst]
    exact foldl_max_le _ _ (List.mem_map_of_mem _ hb)
  · rw [canvas_dims_snd]
    exact foldl_max_le _ _ (List.mem_map_of_mem _ hb)

/-- The scanned canvas width is 0 or attained by some blit's right edge. -/
theorem canvas_dims_attained_w (bs : List ImageBlit) :
    (canvas_dims bs).1 = 0 ∨
      ∃ b ∈ bs, b.x + b.img.width = (canvas_dims bs).1 := by
  rw [canvas_dims_fst]
  rcases foldl_max_attained (bs.map (fun b => b.x + b.img.width)) with h | hn
  · left; exact h
  · obtain ⟨n, hn, he⟩ := hn
    obtain ⟨b, hb, rfl⟩ := List.mem_map.mp hn
    right; exact ⟨b, hb, he⟩

/-- The scanned canvas height is 0 or attained by some blit's bottom edge. -/
theorem canvas_dims_attained_h (bs : List ImageBlit) :
    (canvas_dims bs).2 = 0 ∨
      ∃ b ∈ bs, b.y + b.img.height = (canvas_dims bs).2 := by
  rw [canvas_dims_snd]
  rcases foldl_max_attained (bs.map (fun b => b.y + b.img.height)) with h | hn
  · left; exact h
  · obtain ⟨n, hn, he⟩ := hn
    obtain ⟨b, hb, rfl⟩ := List.mem_map.mp hn
    right; exact ⟨b, hb, he⟩


/-- Painting a rectangle keeps the canvas width. -/
theorem paint_width (buf other : Img) (x y : Nat) :
    (paint buf other x y).width = buf.width := rfl

/-- Painting a rectangle keeps the canvas height. -/
theorem paint_height (buf other : Img) (x y : Nat) :
    (paint buf other x y).height = buf.height := rfl

/-- Inside the painted rectangle the new pixel comes from `other`. -/
theorem paint_pix_in (buf other : Img) (x y u v : Nat)
    (h : x ≤ u ∧ u < x + other.width ∧ y ≤ v ∧ v < y + other.height) :
    (paint buf other x y).pix u v = other.pix (u - x) (v - y) := by
  simp only [paint]
  exact if_pos h

/-- Outside the painted rectangle the old pixel survives. -/
theorem paint_pix_out (buf other : Img) (x y u v : Nat)
    (h : ¬ (x ≤ u ∧ u < x + other.width ∧ y ≤ v ∧ v < y + other.height)) :
    (paint buf other x y).pix u v = buf.pix u v := by
  simp only [paint]
  exact if_neg h

/-- `copy_from` succeeds when the destination rectangle fits, and paints it. -/
theorem copy_from_ok (buf other : Img) (x y : Nat)
    (h1 : x + other.width ≤ buf.width) (h2 : y + other.height ≤ buf.height) :
    copy_from buf other x y = Except.ok (paint buf other x y) := by
  unfold copy_from
  rw [if_neg (by omega)]

/-- One fitting step of the copy loop paints the head blit and continues. -/
theorem copyAllBlits_cons_ok (buf : Img) (b : ImageBlit) (tl : List ImageBlit)
    (h1 : b.x + b.img.width ≤ buf.width)
    (h2 : b.y + b.img.height ≤ buf.height) :
    copyAllBlits buf (b :: tl) =
      copyAllBlits (paint buf b.img b.x b.y) tl := by
  simp only [copyAllBlits, copy_from_ok buf b.img b.x b.y h1 h2]

/-- The copy loop succeeds and preserves the canvas dimensions whenever
every blit's rectangle fits in the canvas. -/
theorem copyAllBlits_ok (bs : List ImageBlit) :
    ∀ buf : Img,
      (∀ b ∈ bs, b.x + b.img.width ≤ buf.width ∧
        b.y + b.img.height ≤ buf.height) →
      ∃ c, copyAllBlits buf bs = Except.ok c ∧
        c.width = buf.width ∧ c.height = buf.height := by
  induction bs with
  | nil => intro buf _; exact ⟨buf, rfl, rfl, rfl⟩
  | cons hd tl ih =>
    intro buf hfit
    obtain ⟨h1, h2⟩ := hfit hd (List.mem_cons_self _ _)
    obtain ⟨c, hc, hw, hh⟩ := ih (paint buf hd.img hd.x hd.y)
      (fun b hb => hfit b (List.mem_cons_of_mem _ hb))
    exact ⟨c, by rw [copyAllBlits_cons_ok buf hd tl h1 h2]; exact hc, hw, hh⟩

/-- A point covered by no blit of a fitting list keeps its original value
through the copy loop. -/
theorem copyAll_pix_outside (bs : List ImageBlit) :
    ∀ (buf c : Img) (u v : Nat),
      (∀ b ∈ bs, b.x + b.img.width ≤ buf.width ∧
        b.y + b.img.height ≤ buf.height) →
      (∀ b ∈ bs, ¬ inRectP b u v) →
      copyAllBlits buf bs = Except.ok c → c.pix u v = buf.pix u v := by
  induction bs with
  | nil =>
    intro buf c u v _ _ h
    simp only [copyAllBlits] at h
    cases h
    rfl
  | cons hd tl ih =>
    intro buf c u v hfit hout hrun
    obtain ⟨h1, h2⟩ := hfit hd (List.mem_cons_self _ _)
    rw [copyAllBlits_cons_ok buf hd tl h1 h2] at hrun
    rw [ih (paint buf hd.img hd.x hd.y) c u v
      (fun b hb => hfit b (List.mem_cons_of_mem _ hb))
      (fun b hb => hout b (List.mem_cons_of_mem _ hb)) hrun]
    exact paint_pix_out buf hd.img hd.x hd.y u v
      (hout hd (List.mem_cons_self _ _))

/-- After the copy loop, a point inside blit `i`'s rectangle that no later
blit covers holds blit `i`'s pixel. -/
theorem copyAll_pix_at (bs : List ImageBlit) :
    ∀ (buf : Img) (i : Nat) (hi : i < bs.length) (u v : Nat) (c : Img),
      (∀ b ∈ bs, b.x + b.img.width ≤ buf.width ∧
        b.y + b.img.height ≤ buf.height) →
      inRectP (bs.get ⟨i, hi⟩) u v →
      (∀ (j : Nat) (hj : j < bs.length), i < j →
        ¬ inRectP (bs.get ⟨j, hj⟩) u v) →
      copyAllBlits buf bs = Except.ok c →
      c.pix u v = (bs.get ⟨i, hi⟩).img.pix
        (u - (bs.get ⟨i, hi⟩).x) (v - (bs.get ⟨i, hi⟩).y) := by
  induction bs with
  | nil => intro buf i hi; cases hi
  | cons hd tl ih =>
    intro buf i hi u v c hfit hin hlater hrun
    obtain ⟨h1, h2⟩ := hfit hd (List.mem_cons_self _ _)
    rw [copyAllBlits_cons_ok buf hd tl h1 h2] at hrun
    cases i with
    | zero =>
      have hout : ∀ b ∈ tl, ¬ inRectP b u v := by
        intro b hb
        obtain ⟨⟨k, hk⟩, hget⟩ := List.get_of_mem hb
        rw [← hget]
        exact hlater (k + 1) (Nat.succ_lt_succ hk) (Nat.succ_pos k)
      rw [copyAll_pix_outside tl (paint buf hd.img hd.x hd.y) c u v
        (fun b hb => hfit b (List.mem_cons_of_mem _ hb)) hout hrun]
      exact paint_pix_in buf hd.img hd.x hd.y u v hin
    | succ k =>
      have hk : k < tl.length := Nat.lt_of_succ_lt_succ hi
      exact ih (paint buf hd.img hd.x hd.y) k hk u v c
        (fun b hb => hfit b (List.mem_cons_of_mem _ hb))
        hin
        (fun j hj hkj =>
          hlater (j + 1) (Nat.succ_lt_succ hj) (Nat.succ_lt_succ hkj))
        hrun

/-- The planner produces one blit per image. -/
theorem gcb_length (imgs : List Img) (dir : ConcatDirection) :
    ∀ x y : Nat, (get_concat_blits imgs dir x y).length = imgs.length := by
  induction imgs with
  | nil => intro x y; cases dir <;> rfl
  | cons a l ih =>
    intro x y
    cases dir <;> simp [get_concat_blits, ih]

/-- The planner's blits reference exactly the input images, in order. -/
theorem gcb_map_img (imgs : List Img) (dir : ConcatDirection) :
    ∀ x y : Nat, (get_concat_blits imgs dir x y).map ImageBlit.img = imgs := by
  induction imgs with
  | nil => intro x y; cases dir <;> rfl
  | cons a l ih =>
    intro x y
    cases dir <;> simp [get_concat_blits, ih]

/-- Sum of a mapped prefix, one step longer. -/
theorem take_map_sum_succ {α : Type} (f : α → Nat) :
    ∀ (l : List α) (i : Nat) (hi : i < l.length),
      ((l.take (i + 1)).map f).sum =
        ((l.take i).map f).sum + f (l.get ⟨i, hi⟩) := by
  intro l
  induction l with
  | nil => intro i hi; cases hi
  | cons a l ih =>
    intro i hi
    cases i with
    | zero => simp
    | succ k =>
      have hk : k < l.length := Nat.lt_of_succ_lt_succ hi
      simp only [List.take_succ_cons, List.map_cons, List.sum_cons,
        List.get_cons_succ]
      rw [ih k hk]
      omega

/-- Sum of a mapped prefix is monotone in the prefix length. -/
theorem take_map_sum_mono {α : Type} (f : α → Nat) :
    ∀ (l : List α) (i j : Nat), i ≤ j →
      ((l.take i).map f).sum ≤ ((l.take j).map f).sum := by
  intro l
  induction l with
  | nil => intro i j _; simp
  | cons a l ih =>
    intro i j hij
    cases i with
    | zero => simp
    | succ k =>
      cases j with
      | zero => omega
      | succ m =>
        simp only [List.take_succ_cons, List.map_cons, List.sum_cons]
        exact Nat.add_le_add_left (ih k m (Nat.le_of_succ_le_succ hij)) _

/-- Sum of a mapped prefix is bounded by the sum over the whole list. -/
theorem take_map_sum_le {α : Type} (f : α → Nat) :
    ∀ (l : List α) (i : Nat), ((l.take i).map f).sum ≤ (l.map f).sum := by
  intro l
  induction l with
  | nil => intro i; simp
  | cons a l ih =>
    intro i
    cases i with
    | zero => simp
    | succ k =>
      simp only [List.take_succ_cons, List.map_cons, List.sum_cons]
      exact Nat.add_le_add_left (ih k) _

/-- The `i`-th blit of a vertical plan: same image, `x` unchanged, `y`
advanced by the heights of all previous images. -/
theorem gcb_vert_get (imgs : List Img) :
    ∀ (x y i : Nat) (hi : i < imgs.length)
      (hi2 : i < (get_concat_blits imgs ConcatDirection.Vertical x y).length),
      (get_concat_blits imgs ConcatDirection.Vertical x y).get ⟨i, hi2⟩ =
        { img := imgs.get ⟨i, hi⟩, x := x,
          y := y + ((imgs.take i).map Img.height).sum } := by
  induction imgs with
  | nil => intro x y i hi; cases hi
  | cons a l ih =>
    intro x y i hi hi2
    cases i with
    | zero => simp [get_concat_blits]
    | succ k =>
      have hk : k < l.length := Nat.lt_of_succ_lt_succ hi
      have hk2 : k < (get_concat_blits l ConcatDirection.Vertical x
          (y + a.height)).length := by
        rw [gcb_length]; exact hk
      have := ih x (y + a.height) k hk hk2
      simp only [get_concat_blits, List.get_cons_succ, List.take_succ_cons,
        List.map_cons, List.sum_cons]
      rw [this]
      simp [Nat.add_assoc]

/-- The `i`-th blit of a horizontal plan: same image, `y` unchanged, `x`
advanced by the widths of all previous images. -/
theorem gcb_horiz_get (imgs : List Img) :
    ∀ (x y i : Nat) (hi : i < imgs.length)
      (hi2 : i < (get_concat_blits imgs ConcatDirection.Horizontal x y).length),
      (get_concat_blits imgs ConcatDirection.Horizontal x y).get ⟨i, hi2⟩ =
        { img := imgs.get ⟨i, hi⟩,
          x := x + ((imgs.take i).map Img.width).sum, y := y } := by
  induction imgs with
  | nil => intro x y i hi; cases hi
  | cons a l ih =>
    intro x y i hi hi2
    cases i with
    | zero => simp [get_concat_blits]
    | succ k =>
      have hk : k < l.length := Nat.lt_of_succ_lt_succ hi
      have hk2 : k < (get_concat_blits l ConcatDirection.Horizontal
          (x + a.width) y).length := by
        rw [gcb_length]; exact hk
      have := ih (x + a.width) y k hk hk2
      simp only [get_concat_blits, List.get_cons_succ, List.take_succ_cons,
        List.map_cons, List.sum_cons]
      rw [this]
      simp [Nat.add_assoc]

/-- Width of a vertical plan's canvas: the max of the image widths. -/
theorem cd_vert_fst (imgs : List Img) :
    ∀ y : Nat,
      (canvas_dims (get_concat_blits imgs ConcatDirection.Vertical 0 y)).1 =
        (imgs.map Img.width).foldl max 0 := by
  induction imgs with
  | nil => intro y; rfl
  | cons a l ih =>
    intro y
    simp only [get_concat_blits]
    rw [canvas_dims_fst_cons, ih (y + a.height)]
    simp only [List.map_cons, List.foldl_cons, nat_max_zero_left, Nat.zero_add]
    rw [foldl_max_from (List.map Img.width l) a.width]

/-- Height of a vertical plan's canvas seeded at `y`: `y` plus the sum of
the image heights. -/
theorem cd_vert_snd (imgs : List Img) :
    ∀ x y : Nat,
      max y
        (canvas_dims (get_concat_blits imgs ConcatDirection.Vertical x y)).2 =
        y + (imgs.map Img.height).sum := by
  induction imgs with
  | nil =>
    intro x y
    simp [get_concat_blits, canvas_dims, nat_max_zero_right]
  | cons a l ih =>
    intro x y
    simp only [get_concat_blits]
    rw [canvas_dims_snd_cons, ← max_assoc,
      max_eq_right (Nat.le_add_right y a.height), ih x (y + a.height)]
    simp only [List.map_cons, List.sum_cons]
    omega

/-- Height of a horizontal plan's canvas: the max of the image heights. -/
theorem cd_horiz_snd (imgs : List Img) :
    ∀ x : Nat,
      (canvas_dims (get_concat_blits imgs ConcatDirection.Horizontal x 0)).2 =
        (imgs.map Img.height).foldl max 0 := by
  induction imgs with
  | nil => intro x; rfl
  | cons a l ih =>
    intro x
    simp only [get_concat_blits]
    rw [canvas_dims_snd_cons, ih (x + a.width)]
    simp only [List.map_cons, List.foldl_cons, nat_max_zero_left, Nat.zero_add]
    rw [foldl_max_from (List.map Img.height l) a.height]

/-- Width of a horizontal plan's canvas seeded at `x`: `x` plus the sum of
the image widths. -/
theorem cd_horiz_fst (imgs : List Img) :
    ∀ x y : Nat,
      max x
        (canvas_dims (get_concat_blits imgs ConcatDirection.Horizontal x y)).1 =
        x + (imgs.map Img.width).sum := by
  induction imgs with
  | nil =>
    intro x y
    simp [get_concat_blits, canvas_dims, nat_max_zero_right]
  | cons a l ih =>
    intro x y
    simp only [get_concat_blits]
    rw [canvas_dims_fst_cons, ← max_assoc,
      max_eq_right (Nat.le_add_right x a.width), ih (x + a.width) y]
    simp only [List.map_cons, List.sum_cons]
    omega

/-- C6: confirmed.  Vertically stacking any image sequence with
`concat_images` succeeds and yields a canvas whose width is the maximum of
the input widths (0 for the empty sequence) and whose height is the sum of
the input heights, with image `i` placed at `x = 0`,
`y = sum of the heights of images 0..i-1`: every pixel of image `i` is
found at that offset in the canvas. -/
theorem c6_vertical_stack_layout (images : List Img) :
    ∃ c, concat_images images ConcatDirection.Vertical = Except.ok c ∧
      c.width = (images.map Img.width).foldl max 0 ∧
      c.height = (images.map Img.height).sum ∧
      ∀ (i : Nat) (hi : i < images.length) (u v : Nat),
        u < (images.get ⟨i, hi⟩).width → v < (images.get ⟨i, hi⟩).height →
        c.pix u (((images.take i).map Img.height).sum + v) =
          (images.get ⟨i, hi⟩).pix u v := by
  set blits := get_concat_blits images ConcatDirection.Vertical 0 0 with hblits
  obtain ⟨c, hc, hw, hh⟩ := copyAllBlits_ok blits
    { width := (canvas_dims blits).1, height := (canvas_dims blits).2,
      pix := fun _ _ => 0 }
    (canvas_dims_le blits)
  refine ⟨c, hc, ?_, ?_, ?_⟩
  · rw [hw]
    exact cd_vert_fst images 0
  · rw [hh]
    have h2 := cd_vert_snd images 0 0
    rw [nat_max_zero_left, Nat.zero_add] at h2
    exact h2
  · intro i hi u v hu hv
    have hi2 : i < blits.length := by
      rw [hblits, gcb_length]; exact hi
    have hget := gcb_vert_get images 0 0 i hi hi2
    have hin : inRectP (blits.get ⟨i, hi2⟩) u
        (((images.take i).map Img.height).sum + v) := by
      rw [hget]
      refine ⟨Nat.zero_le u, ?_, ?_, ?_⟩ <;> dsimp only <;> omega
    have hlater : ∀ (j : Nat) (hj : j < blits.length), i < j →
        ¬ inRectP (blits.get ⟨j, hj⟩) u
          (((images.take i).map Img.height).sum + v) := by
      intro j hj hij
      have hj2 : j < images.length := by
        rw [hblits, gcb_length] at hj; exact hj
      rw [gcb_vert_get images 0 0 j hj2 hj]
      intro hcontra
      obtain ⟨_, _, h3, _⟩ := hcontra
      have hmono := take_map_sum_mono Img.height images (i + 1) j hij
      have hsucc := take_map_sum_succ Img.height images i hi
      simp only [Nat.zero_add] at h3
      omega
    have key := copyAll_pix_at blits _ i hi2 u
      (((images.take i).map Img.height).sum + v) c
      (canvas_dims_le blits) hin hlater hc
    rw [hget] at key
    simp only [Nat.sub_zero, Nat.zero_add, Nat.add_sub_cancel_left] at key
    exact key

/-- C7: confirmed.  Horizontally stacking any image sequence with
`concat_images` succeeds and yields a canvas whose width is the sum of the
input widths and whose height is the maximum of the input heights (0 for
the empty sequence), with image `i` placed at `y = 0`,
`x = sum of the widths of images 0..i-1`: every pixel of image `i` is found
at that offset in the canvas. -/
theorem c7_horizontal_stack_layout (images : List Img) :
    ∃ c, concat_images images ConcatDirection.Horizontal = Except.ok c ∧
      c.width = (images.map Img.width).sum ∧
      c.height = (images.map Img.height).foldl max 0 ∧
      ∀ (i : Nat) (hi : i < images.length) (u v : Nat),
        u < (images.get ⟨i, hi⟩).width → v < (images.get ⟨i, hi⟩).height →
        c.pix (((images.take i).map Img.width).sum + u) v =
          (images.get ⟨i, hi⟩).pix u v := by
  set blits := get_concat_blits images ConcatDirection.Horizontal 0 0
    with hblits
  obtain ⟨c, hc, hw, hh⟩ := copyAllBlits_ok blits
    { width := (canvas_dims blits).1, height := (canvas_dims blits).2,
      pix := fun _ _ => 0 }
    (canvas_dims_le blits)
  refine ⟨c, hc, ?_, ?_, ?_⟩
  · rw [hw]
    have h2 := cd_horiz_fst images 0 0
    rw [nat_max_zero_left, Nat.zero_add] at h2
    exact h2
  · rw [hh]
    exact cd_horiz_snd images 0
  · intro i hi u v hu hv
    have hi2 : i < blits.length := by
      rw [hblits, gcb_length]; exact hi
    have hget := gcb_horiz_get images 0 0 i hi hi2
    have hin : inRectP (blits.get ⟨i, hi2⟩)
        (((images.take i).map Img.width).sum + u) v := by
      rw [hget]
      refine ⟨?_, ?_, Nat.zero_le v, ?_⟩ <;> dsimp only <;> omega
    have hlater : ∀ (j : Nat) (hj : j < blits.length), i < j →
        ¬ inRectP (blits.get ⟨j, hj⟩)
          (((images.take i).map Img.width).sum + u) v := by
      intro j hj hij
      have hj2 : j < images.length := by
        rw [hblits, gcb_length] at hj; exact hj
      rw [gcb_horiz_get images 0 0 j hj2 hj]
      intro hcontra
      obtain ⟨h1, _, _, _⟩ := hcontra
      have hmono := take_map_sum_mono Img.width images (i + 1) j hij
      have hsucc := take_map_sum_succ Img.width images i hi
      simp only [Nat.zero_add] at h1
      omega
    have key := copyAll_pix_at blits _ i hi2
      (((images.take i).map Img.width).sum + u) v c
      (canvas_dims_le blits) hin hlater hc
    rw [hget] at key
    simp only [Nat.sub_zero, Nat.zero_add, Nat.add_sub_cancel_left] at key
    exact key

/-- Two distinct blits of a vertical plan never cover a common point. -/
theorem gcb_vert_disjoint (images : List Img) (i j : Nat)
    (hi : i < (get_concat_blits images ConcatDirection.Vertical 0 0).length)
    (hj : j < (get_concat_blits images ConcatDirection.Vertical 0 0).length)
    (hij : i < j) (u v : Nat) :
    ¬ (inRectP ((get_concat_blits images ConcatDirection.Vertical 0 0).get
          ⟨i, hi⟩) u v ∧
       inRectP ((get_concat_blits images ConcatDirection.Vertical 0 0).get
          ⟨j, hj⟩) u v) := by
  have hi2 : i < images.length := by rw [gcb_length] at hi; exact hi
  have hj2 : j < images.length := by rw [gcb_length] at hj; exact hj
  rw [gcb_vert_get images 0 0 i hi2 hi, gcb_vert_get images 0 0 j hj2 hj]
  intro hcontra
  obtain ⟨⟨_, _, h3, h4⟩, ⟨_, _, h7, _⟩⟩ := hcontra
  have hsucc := take_map_sum_succ Img.height images i hi2
  have hmono := take_map_sum_mono Img.height images (i + 1) j hij
  dsimp only at h3 h4 h7
  omega

/-- Two distinct blits of a horizontal plan never cover a common point. -/
theorem gcb_horiz_disjoint (images : List Img) (i j : Nat)
    (hi : i < (get_concat_blits images ConcatDirection.Horizontal 0 0).length)
    (hj : j < (get_concat_blits images ConcatDirection.Horizontal 0 0).length)
    (hij : i < j) (u v : Nat) :
    ¬ (inRectP ((get_concat_blits images ConcatDirection.Horizontal 0 0).get
          ⟨i, hi⟩) u v ∧
       inRectP ((get_concat_blits images ConcatDirection.Horizontal 0 0).get
          ⟨j, hj⟩) u v) := by
  have hi2 : i < images.length := by rw [gcb_length] at hi; exact hi
  have hj2 : j < images.length := by rw [gcb_length] at hj; exact hj
  rw [gcb_horiz_get images 0 0 i hi2 hi, gcb_horiz_get images 0 0 j hj2 hj]
  intro hcontra
  obtain ⟨⟨h1, h2, _, _⟩, ⟨h5, _, _, _⟩⟩ := hcontra
  have hsucc := take_map_sum_succ Img.width images i hi2
  have hmono := take_map_sum_mono Img.width images (i + 1) j hij
  dsimp only at h1 h2 h5
  omega

/-- C8: confirmed.  For either direction, the planner's blits appear in
input order (their images are exactly the inputs in order), no two distinct
blits' destination rectangles share a point (rectangles of width-0 or
height-0 images are empty), compositing them succeeds, every rectangle fits
the produced canvas, and the canvas has no slack: each of its dimensions is
zero or attained by some blit's far edge. -/
theorem c8_blit_invariants (images : List Img) (dir : ConcatDirection) :
    ((get_concat_blits images dir 0 0).map ImageBlit.img = images) ∧
    (∀ (i j : Nat) (hi : i < (get_concat_blits images dir 0 0).length)
        (hj : j < (get_concat_blits images dir 0 0).length), i ≠ j →
      ∀ u v : Nat,
        ¬ (inRectP ((get_concat_blits images dir 0 0).get ⟨i, hi⟩) u v ∧
           inRectP ((get_concat_blits images dir 0 0).get ⟨j, hj⟩) u v)) ∧
    (∃ c, place_images_in_buffer (get_concat_blits images dir 0 0) =
        Except.ok c ∧
      (∀ b ∈ get_concat_blits images dir 0 0,
        b.x + b.img.width ≤ c.width ∧ b.y + b.img.height ≤ c.height) ∧
      (c.width = 0 ∨
        ∃ b ∈ get_concat_blits images dir 0 0,
          b.x + b.img.width = c.width) ∧
      (c.height = 0 ∨
        ∃ b ∈ get_concat_blits images dir 0 0,
          b.y + b.img.height = c.height)) := by
  refine ⟨gcb_map_img images dir 0 0, ?_, ?_⟩
  · intro i j hi hj hne u v
    rcases Nat.lt_or_ge i j with h | h
    · cases dir
      · exact gcb_vert_disjoint images i j hi hj h u v
      · exact gcb_horiz_disjoint images i j hi hj h u v
    · have hji : j < i := Nat.lt_of_le_of_ne h (fun he => hne he.symm)
      intro hcontra
      cases dir
      · exact gcb_vert_disjoint images j i hj hi hji u v
          ⟨hcontra.2, hcontra.1⟩
      · exact gcb_horiz_disjoint images j i hj hi hji u v
          ⟨hcontra.2, hcontra.1⟩
  · obtain ⟨c, hc, hw, hh⟩ := copyAllBlits_ok (get_concat_blits images dir 0 0)
      { width := (canvas_dims (get_concat_blits images dir 0 0)).1,
        height := (canvas_dims (get_concat_blits images dir 0 0)).2,
        pix := fun _ _ => 0 }
      (canvas_dims_le (get_concat_blits images dir 0 0))
    refine ⟨c, hc, ?_, ?_, ?_⟩
    · intro b hb
      constructor
      · rw [hw]
        exact (canvas_dims_le (get_concat_blits images dir 0 0) b hb).1
      · rw [hh]
        exact (canvas_dims_le (get_concat_blits images dir 0 0) b hb).2
    · rcases canvas_dims_attained_w (get_concat_blits images dir 0 0) with
        h0 | ⟨b, hb, he⟩
      · left; rw [hw]; exact h0
      · right; exact ⟨b, hb, by rw [hw]; exact he⟩
    · rcases canvas_dims_attained_h (get_concat_blits images dir 0 0) with
        h0 | ⟨b, hb, he⟩
      · left; rw [hh]; exact h0
      · right; exact ⟨b, hb, by rw [hh]; exact he⟩

/-- C9: confirmed.  `place_images_in_buffer` succeeds on every blit list —
including the empty list, arbitrary offsets and overlapping rectangles —
because the canvas is sized as the per-coordinate maximum of `x + width`
and `y + height` over all blits, so the out-of-bounds branch of the
per-blit copy is unreachable. -/
theorem c9_place_images_total (blits : List ImageBlit) :
    ∃ c, place_images_in_buffer blits = Except.ok c := by
  obtain ⟨c, hc, _, _⟩ := copyAllBlits_ok blits
    { width := (canvas_dims blits).1, height := (canvas_dims blits).2,
      pix := fun _ _ => 0 }
    (canvas_dims_le blits)
  exact ⟨c, hc⟩

/-- Opening a list of well-formed sources yields exactly those decoders. -/
theorem openDecoders_map (ds : List Decoder) :
    openDecoders (ds.map OpenResult.decoder) = some ds := by
  induction ds with
  | nil => rfl
  | cons d l ih => simp [openDecoders, ih]

/-- The decode loop never hits the slice-unwrap panic when the remaining
byte lengths fit in the buffer after the running offset. -/
theorem decodeLoop_ok (ds : List Decoder) :
    ∀ (buf : RgbBuffer) (s : Nat),
      s + (ds.map Decoder.totalBytes).sum ≤ buf.width * buf.height * 3 →
      ∃ b, decodeLoop buf s ds = RunResult.ok b := by
  induction ds with
  | nil => intro buf s _; exact ⟨buf, rfl⟩
  | cons d l ih =>
    intro buf s h
    have h2 : s + d.totalBytes + (l.map Decoder.totalBytes).sum ≤
        buf.width * buf.height * 3 := by
      simp only [List.map_cons, List.sum_cons] at h
      omega
    have hbe : s + d.totalBytes ≤ buf.width * buf.height * 3 := by omega
    simp only [decodeLoop]
    rw [if_pos hbe]
    cases hr : d.readOk
    · simp only [hr, Bool.false_eq_true, if_false]
      exact ih buf (s + d.totalBytes) h2
    · simp only [hr, if_true]
      exact ih
        { buf with data := fun i =>
            if s ≤ i ∧ i < s + d.totalBytes then d.data (i - s)
            else buf.data i }
        (s + d.totalBytes) h2

/-- Under the uniform 3-bytes-per-pixel assumption, the total raw byte
length is bounded by the canvas byte length `max_width * total_height * 3`. -/
theorem sum_bytes_le (ds : List Decoder) :
    (∀ d ∈ ds, d.totalBytes = d.width * d.height * 3) →
    (ds.map Decoder.totalBytes).sum ≤
      ((ds.map Decoder.width).foldl max 0) *
        ((ds.map Decoder.height).sum) * 3 := by
  induction ds with
  | nil => intro _; simp
  | cons d l ih =>
    intro h3
    have hd := h3 d (List.mem_cons_self _ _)
    have hrec := ih (fun e he => h3 e (List.mem_cons_of_mem _ he))
    simp only [List.map_cons, List.sum_cons, List.foldl_cons,
      nat_max_zero_left]
    rw [foldl_max_from (l.map Decoder.width) d.width]
    have h1 : d.width ≤ max d.width ((l.map Decoder.width).foldl max 0) :=
      le_max_left _ _
    have hW : (l.map Decoder.width).foldl max 0 ≤
        max d.width ((l.map Decoder.width).foldl max 0) := le_max_right _ _
    have e1 : d.totalBytes ≤
        max d.width ((l.map Decoder.width).foldl max 0) * d.height * 3 := by
      rw [hd]
      exact Nat.mul_le_mul (Nat.mul_le_mul h1 (le_refl d.height)) (le_refl 3)
    have e2 : (l.map Decoder.totalBytes).sum ≤
        max d.width ((l.map Decoder.width).foldl max 0) *
          ((l.map Decoder.height).sum) * 3 :=
      le_trans hrec
        (Nat.mul_le_mul (Nat.mul_le_mul hW (le_refl _)) (le_refl 3))
    have e3 : max d.width ((l.map Decoder.width).foldl max 0) *
        (d.height + (l.map Decoder.height).sum) * 3 =
      max d.width ((l.map Decoder.width).foldl max 0) * d.height * 3 +
        max d.width ((l.map Decoder.width).foldl max 0) *
          ((l.map Decoder.height).sum) * 3 := by
      ring
    omega

/-- C10: confirmed.  When every decoder's declared byte length equals
`width * height * 3` (the canvas's RGB8 bytes-per-pixel), the fast-path
loader never fails its byte-range slice extraction: the run returns `ok`
(the `get_mut(..).unwrap()` cannot panic), and every cumulative prefix of
the (contiguous, back-to-back) byte ranges stays within the allocated
buffer length `max_width * total_height * 3`. -/
theorem c10_byte_ranges_safe (decoders : List Decoder)
    (h3 : ∀ d ∈ decoders, d.totalBytes = d.width * d.height * 3) :
    (∃ b, load_and_vert_concat_images (decoders.map OpenResult.decoder) =
        RunResult.ok b) ∧
    (∀ k : Nat, ((decoders.take k).map Decoder.totalBytes).sum ≤
      ((decoders.map Decoder.width).foldl max 0) *
        ((decoders.map Decoder.height).sum) * 3) := by
  have hbound := sum_bytes_le decoders h3
  constructor
  · have hopen := openDecoders_map decoders
    obtain ⟨b, hb⟩ := decodeLoop_ok decoders
      { width := (decoders.map Decoder.width).foldl max 0,
        height := (decoders.map Decoder.height).sum, data := fun _ => 0 } 0
      (by dsimp only; omega)
    refine ⟨b, ?_⟩
    simp only [load_and_vert_concat_images, hopen]
    exact hb
  · intro k
    exact le_trans (take_map_sum_le Decoder.totalBytes decoders k) hbound

/-- Witness for C10 at the concrete decoder pair `c10_probe`. -/
theorem c10_byte_ranges_safe_witness :
    (∃ b, load_and_vert_concat_images (c10_probe.map OpenResult.decoder) =
        RunResult.ok b) ∧
    (∀ k : Nat, ((c10_probe.take k).map Decoder.totalBytes).sum ≤
      ((c10_probe.map Decoder.width).foldl max 0) *
        ((c10_probe.map Decoder.height).sum) * 3) := by
  apply c10_byte_ranges_safe
  intro d hd
  rcases List.mem_cons.mp hd with rfl | hd2
  · rfl
  · rcases List.mem_cons.mp hd2 with rfl | hd3
    · rfl
    · cases hd3
